/-
Verification of the BARLineDP training core (train_model.py): the
hierarchical multi-task loss (file-level BCE + rank-discounted line
divergence), class weighting, the epoch orchestration loop, model
selection and checkpointing.  Tensors are embedded as lists of reals,
the epoch loop as a fold over epoch indices, and the IEEE NaN produced
by the unguarded min-max normalization as an Option failure.
-/
import Mathlib

open Classical

set_option maxHeartbeats 1000000

/-- Base-2 logarithm on the reals, as used by torch.log2. -/
noncomputable def log2 (x : ℝ) : ℝ := Real.log x / Real.log 2

/-- Embedding of F.softmax over a 1-D tensor (last dimension):
each entry becomes exp x divided by the sum of exponentials. -/
noncomputable def softmax (xs : List ℝ) : List ℝ :=
  xs.map (fun x => Real.exp x / (xs.map Real.exp).sum)

/-- Pointwise combination of three equal-length lists (elementwise
tensor arithmetic); extra elements of longer lists are dropped. -/
def zipWith3 (f : α → β → γ → δ) : List α → List β → List γ → List δ
  | a :: as, b :: bs, c :: cs => f a b c :: zipWith3 f as bs cs
  | _, _, _ => []

/-- Source kld(p, q, discounts) = (p * torch.log2(p / q) * discounts).sum(). -/
noncomputable def kld (p q discounts : List ℝ) : ℝ :=
  (zipWith3 (fun pi qi di => pi * log2 (pi / qi) * di) p q discounts).sum

/-- Stable insertion of index i into an index list: i is placed before
the first j it strictly beats, after all ties (stable order). -/
def insKey (better : ℕ → ℕ → Prop) [DecidableRel better] (i : ℕ) : List ℕ → List ℕ
  | [] => [i]
  | j :: l => if better i j then i :: j :: l else j :: insKey better i l

/-- Indices 0..n-1 sorted by the strict priority relation (stable
insertion sort, matching torch.argsort on distinct keys and keeping
the original order on ties). -/
def argsortBy (better : ℕ → ℕ → Prop) [DecidableRel better] (n : ℕ) : List ℕ :=
  (List.range n).foldl (fun acc i => insKey better i acc) []

/-- Embedding of torch.argsort(xs, descending=True): indices of xs
ordered by decreasing value. -/
noncomputable def argsortDesc (xs : List ℝ) : List ℕ :=
  argsortBy (fun i j => xs.getD j 0 < xs.getD i 0) xs.length

/-- Embedding of torch.argsort on a natural-valued tensor (ascending):
indices of xs ordered by increasing value. -/
def argsortAsc (xs : List ℕ) : List ℕ :=
  argsortBy (fun i j => xs.getD i 0 < xs.getD j 0) xs.length

/-- Source ranks = torch.argsort(sorted_indices, dim=-1) + 1 where
sorted_indices = torch.argsort(gt, dim=-1, descending=True): the
1-based rank of each position in the descending order of gt. -/
noncomputable def ranks (gt : List ℝ) : List ℕ :=
  (argsortAsc (argsortDesc gt)).map (· + 1)

/-- Source discounts = 1.0 / torch.log2(ranks.float() + 1). -/
noncomputable def discounts (gt : List ℝ) : List ℝ :=
  (ranks gt).map (fun r : ℕ => 1 / log2 ((r : ℝ) + 1))

/-- Source jsd(pred, gt, epsilon) with the epsilon default left as a
parameter: softmax both inputs, m = 0.5 * (top1_pred + top1_gt +
epsilon) elementwise, rank discounts from gt, result
0.5 * (kld(top1_pred, m, discounts) + kld(top1_gt, m, discounts)). -/
noncomputable def jsdEps (epsilon : ℝ) (pred gt : List ℝ) : ℝ :=
  let top1_pred := softmax pred
  let top1_gt := softmax gt
  let m := List.zipWith (fun a b => 0.5 * (a + b + epsilon)) top1_pred top1_gt
  0.5 * (kld top1_pred m (discounts gt) + kld top1_gt m (discounts gt))

/-- Source jsd at its default epsilon = 1e-8, as invoked by train_model. -/
noncomputable def jsd (pred gt : List ℝ) : ℝ := jsdEps 1e-8 pred gt

/-- Source top_k = int(0.2 * len(line_label)): the 0.2 factor is exact
one fifth here, and truncation is Nat.floor. -/
def topK (L : ℕ) : ℕ := Nat.floor ((0.2 : ℚ) * L)

/-- Per-example line score, train_model.py lines 205-211: truncate the
normalized attention row to the example's line count, sort descending,
keep the top-k values and indices, gather the line labels at those
indices, and score with jsd. -/
noncomputable def exampleLineScore (att lineLabel : List ℝ) : ℝ :=
  let attL := att.take lineLabel.length
  let top_k := topK lineLabel.length
  let sorted_indices := argsortDesc attL
  let sorted_att := (sorted_indices.map (fun i => attL.getD i 0)).take top_k
  let top_idx := sorted_indices.take top_k
  let sel_label := top_idx.map (fun i => lineLabel.getD i 0)
  jsd sorted_att sel_label

/-- One element of a batch as seen by the line-loss loop: its (already
min-max normalized) attention row, its per-line labels and its file
label (train_model.py line 201 zip). -/
structure FileSample where
  att : List ℝ
  lineLabel : List ℝ
  fileLabel : ℝ

/-- Eligibility test from train_model.py line 202: the example is
skipped iff file_label == 0. or no entry of line_label equals 1.0. -/
noncomputable def eligibleB (ex : FileSample) : Bool :=
  decide (ex.fileLabel ≠ 0 ∧ (1 : ℝ) ∈ ex.lineLabel)

/-- Source cnt: the number of eligible examples in the batch. -/
noncomputable def batchCnt (batch : List FileSample) : ℕ :=
  (batch.filter eligibleB).length

/-- Source train_line_losses: the per-example line scores of exactly the
eligible examples, in batch order. -/
noncomputable def batchLineScores (batch : List FileSample) : List ℝ :=
  (batch.filter eligibleB).map (fun ex => exampleLineScore ex.att ex.lineLabel)

/-- Source lines 214-217: the aggregate line loss is the mean of the
collected scores, or exactly 0 when no example was eligible. -/
noncomputable def batchLineLoss (batch : List FileSample) : ℝ :=
  let s := batchLineScores batch
  if s = [] then 0 else s.sum / s.length

/-- Source line 219: k = args.k * (cnt / len(labels)). -/
noncomputable def kEff (k : ℝ) (cnt B : ℕ) : ℝ := k * ((cnt : ℝ) / B)

/-- Source line 220: loss = (1 - k) * file_loss + k * line_loss, with
file_loss abstract (produced by the BCE criterion). -/
noncomputable def batchLoss (k fileLoss : ℝ) (batch : List FileSample) : ℝ :=
  let ke := kEff k (batchCnt batch) batch.length
  (1 - ke) * fileLoss + ke * batchLineLoss batch

/-- Minimum entry of a nonempty attention row (torch .min over dim 1). -/
noncomputable def listMin (l : List ℝ) : ℝ := l.foldr min (l.headD 0)

/-- Maximum entry of a nonempty attention row (torch .max over dim 1). -/
noncomputable def listMax (l : List ℝ) : ℝ := l.foldr max (l.headD 0)

/-- Source lines 195-197 (and 255-257): per-row min-max normalization
line_atts = (line_atts - att_mins) / (att_maxs - att_mins).  The
division is unguarded; when the row maximum equals the row minimum the
IEEE result is a row of 0/0 = NaN, embedded here as the Option failure
none. -/
noncomputable def minmaxNorm (att : List ℝ) : Option (List ℝ) :=
  if listMax att - listMin att = 0 then none
  else some (att.map (fun a => (a - listMin att) / (listMax att - listMin att)))

/-- Line score of an example starting from its raw (pre-normalization)
attention row: NaN from the normalization poisons the score. -/
noncomputable def exampleLineScoreRaw (rawAtt lineLabel : List ℝ) : Option ℝ :=
  (minmaxNorm rawAtt).map (fun a => exampleLineScore a lineLabel)

/-- Modelled from sklearn's documented balanced class weighting as
invoked at train_model.py line 114 with both classes 0 and 1 present:
weight of class c is n_samples / (n_classes * count_c) with
n_classes = 2. -/
def weightOf (labels : List ℕ) (c : ℕ) : ℚ :=
  (labels.length : ℚ) / (2 * labels.count c)

/-- Source line 117: weight_dict['defect'] = np.max(sample_weights)
where sample_weights lists the weights of the classes 0 and 1. -/
def dictDefect (labels : List ℕ) : ℚ := max (weightOf labels 0) (weightOf labels 1)

/-- Source line 118: weight_dict['clean'] = np.min(sample_weights). -/
def dictClean (labels : List ℕ) : ℚ := min (weightOf labels 0) (weightOf labels 1)

/-- State threaded through the epoch loop: the class-weight dictionary
(lines 116-118, fixed before the loop), the model-selector triple
(lines 161-163), and the list of checkpoint writes so far, each
recorded as (epoch at which the write happened, best_epoch payload,
model payload). -/
structure RunState (α : Type) where
  wDefect : ℚ
  wClean : ℚ
  bestAuc : ℝ
  bestEpoch : ℕ
  bestModel : Option α
  saves : List (ℕ × ℕ × Option α)

/-- One epoch of the orchestration loop, lines 291-305: the selector
accepts when valid_auc >= best_auc (deep-copying the current model
parameters, pure values here), then torch.save fires iff
epoch % num_epochs == 0. -/
noncomputable def epochStep (numEpochs : ℕ) (aucs : ℕ → ℝ) (params : ℕ → α)
    (s : RunState α) (epoch : ℕ) : RunState α :=
  let s' := if s.bestAuc ≤ aucs epoch then
      { s with bestAuc := aucs epoch, bestEpoch := epoch, bestModel := some (params epoch) }
    else s
  if epoch % numEpochs = 0 then
    { s' with saves := s'.saves ++ [(epoch, s'.bestEpoch, s'.bestModel)] }
  else s'

/-- The whole training run: weights computed once from the training
labels before epoch 1, selector initialized to (0, 0, none), then the
loop over epochs 1..num_epochs. -/
noncomputable def runTrain (numEpochs : ℕ) (aucs : ℕ → ℝ) (params : ℕ → α)
    (labels : List ℕ) : RunState α :=
  (List.range' 1 numEpochs).foldl (epochStep numEpochs aucs params)
    ⟨dictDefect labels, dictClean labels, 0, 0, none, []⟩

/-- Parameter/gradient pair of the attention network, scalar-valued
(the one-dimensional instance suffices to exhibit the ordering of the
four mutations in lines 223-226). -/
structure TrainState where
  params : ℝ
  grad : ℝ

/-- loss.backward(): accumulate the incoming gradient g. -/
def backwardOp (g : ℝ) (s : TrainState) : TrainState := ⟨s.params, s.grad + g⟩

/-- optimizer.step() for plain gradient descent at learning rate lr:
the step consumes whatever gradient is currently stored. -/
def stepOp (lr : ℝ) (s : TrainState) : TrainState := ⟨s.params - lr * s.grad, s.grad⟩

/-- optimizer.zero_grad(). -/
def zeroGradOp (s : TrainState) : TrainState := ⟨s.params, 0⟩

/-- torch.nn.utils.clip_grad_norm_(params, c): with a single gradient
the total norm is |g|, the coefficient is c / (|g| + 1e-6), and the
gradient is scaled iff the coefficient is below 1. -/
noncomputable def clipGradNorm (c g : ℝ) : ℝ :=
  let coef := c / (|g| + 1e-6)
  if coef < 1 then g * coef else g

/-- clip_grad_norm_ applied to the stored gradient. -/
noncomputable def clipOp (c : ℝ) (s : TrainState) : TrainState :=
  ⟨s.params, clipGradNorm c s.grad⟩

/-- One training iteration in the order the source executes it,
lines 223-226: loss.backward(); optimizer.step(); optimizer.zero_grad();
nn.utils.clip_grad_norm_(model.parameters(), args.max_grad_norm). -/
noncomputable def codeIter (g lr c : ℝ) (s : TrainState) : TrainState :=
  clipOp c (zeroGradOp (stepOp lr (backwardOp g s)))

/-- Modelled from the spec: the iteration order the spec states
(backpropagate; clip; step; zero), against which the source order is
compared. -/
noncomputable def specIter (g lr c : ℝ) (s : TrainState) : TrainState :=
  zeroGradOp (stepOp lr (clipOp c (backwardOp g s)))

/-- Consecutive chunks of size B (the DataLoader's batch partition);
the last chunk is smaller when B does not divide the length. -/
def chunkList (B : ℕ) : List α → List (List α)
  | [] => []
  | x :: xs => (x :: xs.take (B - 1)) :: chunkList B (xs.drop (B - 1))
termination_by l => l.length
decreasing_by simp_arith [List.length_drop]

/-- Training DataLoader (line 153, drop_last=True): exactly
len/B batches, batch i being the slice [i*B, i*B+B). -/
def trainBatches (B : ℕ) (xs : List α) : List (List α) :=
  (List.range (xs.length / B)).map (fun i => (xs.drop (i * B)).take B)

/-- Validation DataLoader (line 154, drop_last=False): every chunk,
including a smaller final one. -/
def validBatches (B : ℕ) (xs : List α) : List (List α) := chunkList B xs

/-- Modelled from the spec's words for the per-example line loss, with
the additive shift of the mixture M left as a parameter: P is the
softmax of the top-k attention values, Q the softmax of the labels
gathered at the attention ranking, M_i = 0.5 * (P_i + Q_i) + shift,
discount_i = 1 / log2(rank_i + 1) with rank_i the 1-based position of
index i in the descending order of the gathered labels, and the score
is 0.5 * (sum of P-side KL terms + sum of Q-side KL terms) over the k
selected positions. -/
noncomputable def specLineScoreCore (shift : ℝ) (att lineLabel : List ℝ) : ℝ :=
  let L := lineLabel.length
  let k := topK L
  let attL := att.take L
  let idx := (argsortDesc attL).take k
  let pvals := idx.map (fun i => attL.getD i 0)
  let qvals := idx.map (fun i => lineLabel.getD i 0)
  let P := fun i => (softmax pvals).getD i 0
  let Q := fun i => (softmax qvals).getD i 0
  let M := fun i => 0.5 * (P i + Q i) + shift
  let D := fun i => 1 / log2 (((ranks qvals).getD i 0 : ℝ) + 1)
  0.5 * ((∑ i ∈ Finset.range k, P i * log2 (P i / M i) * D i)
       + (∑ i ∈ Finset.range k, Q i * log2 (Q i / M i) * D i))

/-- Modelled from the spec: the claim's formula verbatim, whose mixture
is M = 0.5 * (P + Q) + epsilon with epsilon = 1e-8. -/
noncomputable def specClaimLineScore (att lineLabel : List ℝ) : ℝ :=
  specLineScoreCore 1e-8 att lineLabel

/-- The amended formula: the code actually computes
m = 0.5 * (P + Q + epsilon), i.e. the mixture shift is epsilon / 2. -/
noncomputable def specAmendedLineScore (att lineLabel : List ℝ) : ℝ :=
  specLineScoreCore (1e-8 / 2) att lineLabel

lemma insKey_length (better : ℕ → ℕ → Prop) [DecidableRel better] (i : ℕ) (l : List ℕ) :
    (insKey better i l).length = l.length + 1 := by
  induction l with
  | nil => rfl
  | cons j t ih =>
    simp only [insKey]
    split <;> simp [ih]

lemma argsortBy_fold_length (better : ℕ → ℕ → Prop) [DecidableRel better]
    (L : List ℕ) (acc : List ℕ) :
    (L.foldl (fun acc i => insKey better i acc) acc).length = acc.length + L.length := by
  induction L generalizing acc with
  | nil => simp
  | cons j t ih => simp [List.foldl_cons, ih, insKey_length]; omega

lemma argsortBy_length (better : ℕ → ℕ → Prop) [DecidableRel better] (n : ℕ) :
    (argsortBy better n).length = n := by
  simp [argsortBy, argsortBy_fold_length]

lemma argsortDesc_length (xs : List ℝ) : (argsortDesc xs).length = xs.length := by
  simp [argsortDesc, argsortBy_length]

lemma argsortAsc_length (xs : List ℕ) : (argsortAsc xs).length = xs.length := by
  simp [argsortAsc, argsortBy_length]

lemma ranks_length (gt : List ℝ) : (ranks gt).length = gt.length := by
  simp [ranks, argsortAsc_length, argsortDesc_length]

lemma discounts_length (gt : List ℝ) : (discounts gt).length = gt.length := by
  rw [discounts, List.length_map, ranks_length]

lemma softmax_length (xs : List ℝ) : (softmax xs).length = xs.length := by
  simp [softmax]

lemma softmax_pos (xs : List ℝ) : ∀ x ∈ softmax xs, 0 < x := by
  intro x hx
  simp only [softmax, List.mem_map] at hx
  obtain ⟨a, ha, rfl⟩ := hx
  refine div_pos (Real.exp_pos a) ?_
  have hmem : Real.exp a ∈ xs.map Real.exp := List.mem_map_of_mem Real.exp ha
  have hle : Real.exp a ≤ (xs.map Real.exp).sum := by
    refine List.single_le_sum (fun y hy => ?_) _ hmem
    obtain ⟨b, _, rfl⟩ := List.mem_map.1 hy
    exact (Real.exp_pos b).le
  exact lt_of_lt_of_le (Real.exp_pos a) hle

lemma ranks_ge_one (gt : List ℝ) : ∀ r ∈ ranks gt, 1 ≤ r := by
  intro r hr
  simp only [ranks, List.mem_map] at hr
  obtain ⟨a, _, rfl⟩ := hr
  omega

lemma log2_ge_one_of_two_le {x : ℝ} (hx : 2 ≤ x) : 1 ≤ log2 x := by
  have h2 : (0 : ℝ) < Real.log 2 := Real.log_pos (by norm_num)
  rw [log2, le_div_iff₀ h2, one_mul]
  exact Real.log_le_log (by norm_num) hx

lemma discounts_nonneg (gt : List ℝ) : ∀ d ∈ discounts gt, 0 ≤ d := by
  intro d hd
  rw [discounts, List.mem_map] at hd
  obtain ⟨r, hr, rfl⟩ := hd
  have h1 : 1 ≤ r := ranks_ge_one gt r hr
  have h2 : (2 : ℝ) ≤ (r : ℝ) + 1 := by
    have : (1 : ℝ) ≤ (r : ℝ) := by exact_mod_cast h1
    linarith
  have := log2_ge_one_of_two_le h2
  positivity

lemma topK_le (L : ℕ) : topK L ≤ L := by
  have h : ((0.2 : ℚ) * L) ≤ (L : ℚ) := by
    have : (0 : ℚ) ≤ (L : ℚ) := by positivity
    nlinarith
  calc topK L ≤ Nat.floor ((L : ℚ)) := Nat.floor_mono h
    _ = L := Nat.floor_natCast L

lemma topK_eq_zero_of_lt_five {L : ℕ} (hL : L < 5) : topK L = 0 := by
  interval_cases L <;> simp [topK] <;> norm_num

lemma mul_log_div_ge (p m : ℝ) (hp : 0 < p) (hm : 0 < m) :
    p - m ≤ p * Real.log (p / m) := by
  have hmp : 0 < m / p := div_pos hm hp
  have h1 : Real.log (m / p) ≤ m / p - 1 := Real.log_le_sub_one_of_pos hmp
  have h2 : Real.log (m / p) = -Real.log (p / m) := by
    rw [← Real.log_inv]
    congr 1
    field_simp
  rw [h2] at h1
  have h3 : 1 - m / p ≤ Real.log (p / m) := by linarith
  have h4 : p * (1 - m / p) ≤ p * Real.log (p / m) :=
    mul_le_mul_of_nonneg_left h3 hp.le
  have h5 : p * (1 - m / p) = p - m := by field_simp
  linarith

lemma two_point_nonneg (p q d : ℝ) (hp : 0 < p) (hq : 0 < q) (hd : 0 ≤ d) :
    0 ≤ p * log2 (p / (0.5 * (p + q + 0))) * d + q * log2 (q / (0.5 * (p + q + 0))) * d := by
  have hm : (0 : ℝ) < 0.5 * (p + q + 0) := by nlinarith
  set m := 0.5 * (p + q + 0) with hm_def
  have h1 : p - m ≤ p * Real.log (p / m) := mul_log_div_ge p m hp hm
  have h2 : q - m ≤ q * Real.log (q / m) := mul_log_div_ge q m hq hm
  have hsum : 0 ≤ p * Real.log (p / m) + q * Real.log (q / m) := by
    have : p - m + (q - m) = 0 := by rw [hm_def]; ring
    linarith
  have hlog2 : (0 : ℝ) < Real.log 2 := Real.log_pos (by norm_num)
  have key : p * log2 (p / m) + q * log2 (q / m) =
      (p * Real.log (p / m) + q * Real.log (q / m)) / Real.log 2 := by
    simp only [log2]
    field_simp
  have hnn : 0 ≤ p * log2 (p / m) + q * log2 (q / m) := by
    rw [key]
    positivity
  calc (0 : ℝ) = (p * log2 (p / m) + q * log2 (q / m)) * 0 := by ring
    _ ≤ (p * log2 (p / m) + q * log2 (q / m)) * d := mul_le_mul_of_nonneg_left hd hnn
    _ = p * log2 (p / m) * d + q * log2 (q / m) * d := by ring

lemma kld_pair_nonneg : ∀ (P Q d : List ℝ),
    (∀ x ∈ P, 0 < x) → (∀ x ∈ Q, 0 < x) → (∀ x ∈ d, 0 ≤ x) →
    0 ≤ kld P (List.zipWith (fun a b => 0.5 * (a + b + 0)) P Q) d
      + kld Q (List.zipWith (fun a b => 0.5 * (a + b + 0)) P Q) d
  | [], Q, d => by intro _ _ _; simp [kld, zipWith3]
  | p :: P', [], d => by intro _ _ _; simp [kld, zipWith3]
  | p :: P', q :: Q', [] => by intro _ _ _; simp [kld, zipWith3]
  | p :: P', q :: Q', dd :: d' => by
    intro hP hQ hd
    have hp := hP p (List.mem_cons_self _ _)
    have hq := hQ q (List.mem_cons_self _ _)
    have hdd := hd dd (List.mem_cons_self _ _)
    have ih := kld_pair_nonneg P' Q' d'
      (fun x hx => hP x (List.mem_cons_of_mem _ hx))
      (fun x hx => hQ x (List.mem_cons_of_mem _ hx))
      (fun x hx => hd x (List.mem_cons_of_mem _ hx))
    have hhead := two_point_nonneg p q dd hp hq hdd
    simp only [List.zipWith_cons_cons, kld, zipWith3, List.sum_cons] at *
    linarith

lemma kld_self_zero : ∀ (P d : List ℝ), kld P P d = 0
  | [], _ => by simp [kld, zipWith3]
  | p :: P', [] => by simp [kld, zipWith3]
  | p :: P', dd :: d' => by
    have ih := kld_self_zero P' d'
    simp only [kld, zipWith3, List.sum_cons] at *
    have hterm : p * log2 (p / p) * dd = 0 := by
      by_cases hp : p = 0
      · simp [hp]
      · rw [div_self hp]
        simp [log2]
    rw [hterm, ih, add_zero]

lemma zipWith_avg_self (P : List ℝ) :
    List.zipWith (fun a b => 0.5 * (a + b + 0)) P P = P := by
  induction P with
  | nil => rfl
  | cons p t ih =>
    simp only [List.zipWith_cons_cons, ih]
    congr 1
    ring

lemma softmax_singleton (x : ℝ) : softmax [x] = [1] := by
  simp [softmax, div_self (Real.exp_ne_zero x)]

lemma argsortDesc_singleton (x : ℝ) : argsortDesc [x] = [0] := by
  simp [argsortDesc, argsortBy, List.range_succ, insKey]

lemma argsortAsc_singleton (x : ℕ) : argsortAsc [x] = [0] := by
  simp [argsortAsc, argsortBy, List.range_succ, insKey]

lemma log2_two : log2 2 = 1 := by
  rw [log2, div_self (ne_of_gt (Real.log_pos (by norm_num)))]

lemma discounts_singleton (x : ℝ) : discounts [x] = [1] := by
  rw [discounts, ranks, argsortDesc_singleton, argsortAsc_singleton]
  norm_num [log2_two]

lemma jsdEps_singleton (epsilon x y : ℝ) :
    jsdEps epsilon [x] [y] = log2 (1 / (0.5 * (1 + 1 + epsilon))) := by
  simp only [jsdEps, softmax_singleton, discounts_singleton]
  simp only [List.zipWith_cons_cons, List.zipWith_nil_right, kld, zipWith3,
    List.sum_cons, List.sum_nil]
  ring

lemma log2_neg_of_lt_one {x : ℝ} (h0 : 0 < x) (h1 : x < 1) : log2 x < 0 := by
  have := Real.log_neg h0 h1
  have h2 : (0 : ℝ) < Real.log 2 := Real.log_pos (by norm_num)
  exact div_neg_of_neg_of_pos this h2

lemma log2_lt_log2 {x y : ℝ} (hx : 0 < x) (hxy : x < y) : log2 x < log2 y := by
  have h2 : (0 : ℝ) < Real.log 2 := Real.log_pos (by norm_num)
  exact div_lt_div_of_pos_right (Real.log_lt_log hx hxy) h2

lemma insKey_of_not (better : ℕ → ℕ → Prop) [DecidableRel better]
    (h : ∀ a b, ¬ better a b) (i : ℕ) (l : List ℕ) : insKey better i l = l ++ [i] := by
  induction l with
  | nil => rfl
  | cons j t ih => simp [insKey, h i j, ih]

lemma argsortBy_of_not (better : ℕ → ℕ → Prop) [DecidableRel better]
    (h : ∀ a b, ¬ better a b) (n : ℕ) : argsortBy better n = List.range n := by
  have key : ∀ (L : List ℕ) (acc : List ℕ),
      L.foldl (fun acc i => insKey better i acc) acc = acc ++ L := by
    intro L
    induction L with
    | nil => simp
    | cons j t ih =>
      intro acc
      rw [List.foldl_cons, insKey_of_not better h, ih]
      simp
  simp [argsortBy, key]

lemma getD_eq_of_all {l : List ℝ} {d : ℝ} (h : ∀ x ∈ l, x = d) (n : ℕ) :
    l.getD n d = d := by
  rw [List.getD_eq_getElem?_getD]
  cases hx : l[n]? with
  | none => rfl
  | some x =>
    have := List.getElem?_mem hx
    simp [h x this]

lemma argsortDesc_of_const {xs : List ℝ} (h : ∀ x ∈ xs, x = 0) :
    argsortDesc xs = List.range xs.length := by
  apply argsortBy_of_not
  intro a b
  rw [getD_eq_of_all h, getD_eq_of_all h]
  exact lt_irrefl 0

/-- C3 (amended): with the additive smoothing constant set to 0 the
rank-discounted divergence jsd is nonnegative for every pair of input
vectors, and evaluates to exactly 0 when the prediction vector equals
the ground-truth vector; the code's positive default epsilon = 1e-8 is
what breaks both properties (see the counterexample). -/
theorem jsd_zero_eps_nonneg (pred gt : List ℝ) :
    0 ≤ jsdEps 0 pred gt ∧ jsdEps 0 pred pred = 0 := by
  constructor
  · have h := kld_pair_nonneg (softmax pred) (softmax gt) (discounts gt)
      (softmax_pos pred) (softmax_pos gt) (discounts_nonneg gt)
    simp only [jsdEps]
    linarith
  · simp only [jsdEps, zipWith_avg_self, kld_self_zero]
    ring

lemma sum_zipWith3_range (f : ℝ → ℝ → ℝ → ℝ) (a : List ℝ) :
    ∀ (b c : List ℝ) (n : ℕ), a.length = n → b.length = n → c.length = n →
    (zipWith3 f a b c).sum = ∑ i ∈ Finset.range n, f (a.getD i 0) (b.getD i 0) (c.getD i 0) := by
  induction a with
  | nil =>
    intro b c n ha _ _
    simp only [List.length_nil] at ha
    subst ha
    simp [zipWith3]
  | cons x a ih =>
    intro b c n ha hb hc
    cases b with
    | nil => simp at ha hb; omega
    | cons y b =>
      cases c with
      | nil => simp at ha hc; omega
      | cons z c =>
        obtain ⟨m, rfl⟩ : ∃ m, n = m + 1 := ⟨a.length, by simp at ha; omega⟩
        simp only [zipWith3, List.sum_cons]
        rw [ih b c m (by simp at ha; omega) (by simp at hb; omega) (by simp at hc; omega),
          Finset.sum_range_succ']
        simp only [List.getD_cons_succ, List.getD_cons_zero]
        ring

lemma kld_eq_sum_range (p q d : List ℝ) (n : ℕ) (hp : p.length = n) (hq : q.length = n)
    (hd : d.length = n) :
    kld p q d = ∑ i ∈ Finset.range n,
      (p.getD i 0) * log2 (p.getD i 0 / q.getD i 0) * (d.getD i 0) := by
  rw [kld]
  exact sum_zipWith3_range _ p q d n hp hq hd

lemma getD_zipWith_lt (f : ℝ → ℝ → ℝ) (a b : List ℝ) (i : ℕ)
    (ha : i < a.length) (hb : i < b.length) :
    (List.zipWith f a b).getD i 0 = f (a.getD i 0) (b.getD i 0) := by
  have hl : i < (List.zipWith f a b).length := by
    rw [List.length_zipWith]; omega
  rw [List.getD_eq_getElem _ _ hl, List.getD_eq_getElem _ _ ha, List.getD_eq_getElem _ _ hb,
    List.getElem_zipWith]

lemma getD_map_lt (f : ℕ → ℝ) (l : List ℕ) (i : ℕ) (h : i < l.length) :
    (l.map f).getD i 0 = f (l.getD i 0) := by
  have hm : i < (l.map f).length := by simpa using h
  rw [List.getD_eq_getElem _ _ hm, List.getD_eq_getElem _ _ h, List.getElem_map]

lemma avg_shift (a b : ℝ) : (0.5 : ℝ) * (a + b + 1e-8) = 0.5 * (a + b) + 1e-8 / 2 := by
  ring

/-- C3 counterexample: at pred = gt = [0] (same length, nonempty, and
the attention exactly matches the ground-truth profile) the score the
code computes is strictly negative, refuting both conjuncts of the
claim at once. -/
theorem jsd_self_neg_counterexample : jsd [(0 : ℝ)] [(0 : ℝ)] < 0 := by
  rw [jsd, jsdEps_singleton]
  apply log2_neg_of_lt_one
  · norm_num
  · rw [div_lt_one (by norm_num)]
    norm_num

lemma ranks_singleton (x : ℝ) : ranks [x] = [1] := by
  rw [ranks, argsortDesc_singleton, argsortAsc_singleton]
  rfl

lemma topK_five : topK 5 = 1 := by
  norm_num [topK]

lemma exampleLineScore_flat_eval :
    exampleLineScore [(0 : ℝ), 0, 0, 0, 0] [(1 : ℝ), 0, 0, 0, 0] =
      log2 (1 / (0.5 * (1 + 1 + 1e-8))) := by
  have hconst : ∀ x ∈ ([(0 : ℝ), 0, 0, 0, 0] : List ℝ), x = 0 := by
    intro x hx
    simp at hx
    exact hx
  have hsort : argsortDesc ([(0 : ℝ), 0, 0, 0, 0] : List ℝ) = [0, 1, 2, 3, 4] := by
    rw [argsortDesc_of_const hconst]
    rfl
  have htake : (([(0 : ℝ), 0, 0, 0, 0] : List ℝ).take 5) = [(0 : ℝ), 0, 0, 0, 0] := rfl
  have hlen : ([(1 : ℝ), 0, 0, 0, 0] : List ℝ).length = 5 := rfl
  simp only [exampleLineScore, hlen, htake, topK_five, hsort]
  simp only [List.map_cons, List.map_nil, List.getD_cons_zero, List.take_succ_cons,
    List.take_zero]
  rw [jsd, jsdEps_singleton]

lemma specClaimLineScore_flat_eval :
    specClaimLineScore [(0 : ℝ), 0, 0, 0, 0] [(1 : ℝ), 0, 0, 0, 0] =
      log2 (1 / (0.5 * (1 + 1) + 1e-8)) := by
  have hconst : ∀ x ∈ ([(0 : ℝ), 0, 0, 0, 0] : List ℝ), x = 0 := by
    intro x hx
    simp at hx
    exact hx
  have hsort : argsortDesc ([(0 : ℝ), 0, 0, 0, 0] : List ℝ) = [0, 1, 2, 3, 4] := by
    rw [argsortDesc_of_const hconst]
    rfl
  have htake : (([(0 : ℝ), 0, 0, 0, 0] : List ℝ).take 5) = [(0 : ℝ), 0, 0, 0, 0] := rfl
  have hlen : ([(1 : ℝ), 0, 0, 0, 0] : List ℝ).length = 5 := rfl
  simp only [specClaimLineScore, specLineScoreCore, hlen, htake, topK_five, hsort]
  simp only [List.take_succ_cons, List.take_zero, List.map_cons, List.map_nil,
    List.getD_cons_zero]
  simp only [softmax_singleton, ranks_singleton]
  simp only [Finset.sum_range_one, List.getD_cons_zero]
  norm_num [log2_two]
  ring

/-- C2 counterexample: at the five-line example with uniform normalized
attention [0,0,0,0,0] and line labels [1,0,0,0,0] (top_k = 1), the
per-example line loss the code computes differs from the claim's
formula, whose mixture is M = 0.5 * (P + Q) + epsilon: the code uses
m = 0.5 * (P + Q + epsilon), i.e. half the claimed shift. -/
theorem lineScore_claim_counterexample :
    exampleLineScore [(0 : ℝ), 0, 0, 0, 0] [(1 : ℝ), 0, 0, 0, 0] ≠
      specClaimLineScore [(0 : ℝ), 0, 0, 0, 0] [(1 : ℝ), 0, 0, 0, 0] := by
  rw [exampleLineScore_flat_eval, specClaimLineScore_flat_eval]
  exact (log2_lt_log2 (by norm_num) (by norm_num)).ne'

/-- C2 (amended): for every attention row covering the example's lines,
the per-example line loss equals 0.5*(KL(P,M)+KL(Q,M)) with P the
softmax of the top-k attention values, Q the softmax of the labels
indexed by the attention ranking, discount_i = 1/log2(rank_i+1) by the
ground-truth descending order, and the mixture M = 0.5*(P+Q) + eps/2
(the code computes 0.5*(P+Q+eps), so the additive shift is half the
claimed one). -/
theorem lineScore_formula_amended (att ll : List ℝ) (h : ll.length ≤ att.length) :
    exampleLineScore att ll = specAmendedLineScore att ll := by
  simp only [exampleLineScore, specAmendedLineScore, specLineScoreCore, jsd, jsdEps,
    ← List.map_take]
  set k := topK ll.length with hk
  set si := argsortDesc (att.take ll.length) with hsidef
  set pv := (si.take k).map (fun i => (att.take ll.length).getD i 0) with hpv
  set qv := (si.take k).map (fun i => ll.getD i 0) with hqv
  have hsil : si.length = ll.length := by
    rw [hsidef, argsortDesc_length, List.length_take]
    omega
  have htl : (si.take k).length = k := by
    rw [List.length_take, hsil]
    exact Nat.min_eq_left (hk ▸ topK_le ll.length)
  have hpvl : pv.length = k := by rw [hpv, List.length_map, htl]
  have hqvl : qv.length = k := by rw [hqv, List.length_map, htl]
  have hPl : (softmax pv).length = k := by rw [softmax_length, hpvl]
  have hQl : (softmax qv).length = k := by rw [softmax_length, hqvl]
  have hMl : (List.zipWith (fun a b => 0.5 * (a + b + 1e-8))
      (softmax pv) (softmax qv)).length = k := by
    rw [List.length_zipWith, hPl, hQl, Nat.min_self]
  have hDl : (discounts qv).length = k := by rw [discounts_length, hqvl]
  rw [kld_eq_sum_range _ _ _ k hPl hMl hDl, kld_eq_sum_range _ _ _ k hQl hMl hDl]
  congr 1
  congr 1
  · apply Finset.sum_congr rfl
    intro i hi
    rw [Finset.mem_range] at hi
    have hmi : (List.zipWith (fun a b => 0.5 * (a + b + 1e-8))
        (softmax pv) (softmax qv)).getD i 0 =
        0.5 * ((softmax pv).getD i 0 + (softmax qv).getD i 0 + 1e-8) :=
      getD_zipWith_lt _ _ _ i (by omega) (by omega)
    have hdi : (discounts qv).getD i 0 =
        1 / log2 ((((ranks qv).getD i 0 : ℕ) : ℝ) + 1) := by
      simp only [discounts]
      exact getD_map_lt _ _ i (by rw [ranks_length, hqvl]; omega)
    rw [hmi, hdi, avg_shift]
  · apply Finset.sum_congr rfl
    intro i hi
    rw [Finset.mem_range] at hi
    have hmi : (List.zipWith (fun a b => 0.5 * (a + b + 1e-8))
        (softmax pv) (softmax qv)).getD i 0 =
        0.5 * ((softmax pv).getD i 0 + (softmax qv).getD i 0 + 1e-8) :=
      getD_zipWith_lt _ _ _ i (by omega) (by omega)
    have hdi : (discounts qv).getD i 0 =
        1 / log2 ((((ranks qv).getD i 0 : ℕ) : ℝ) + 1) := by
      simp only [discounts]
      exact getD_map_lt _ _ i (by rw [ranks_length, hqvl]; omega)
    rw [hmi, hdi, avg_shift]

/-- Witness for the amended C2 formula at a concrete five-line example. -/
theorem lineScore_formula_amended_witness :
    exampleLineScore [(0 : ℝ), 0, 0, 0, 0] [(1 : ℝ), 0, 0, 0, 0] =
      specAmendedLineScore [(0 : ℝ), 0, 0, 0, 0] [(1 : ℝ), 0, 0, 0, 0] :=
  lineScore_formula_amended [(0 : ℝ), 0, 0, 0, 0] [(1 : ℝ), 0, 0, 0, 0] (Nat.le_refl 5)

/-- C1 (code bug): an eligible five-line example (file label 1, line
labels [1,0,0,0,0]) whose raw attention scores are all equal hits the
unguarded 0/0 in the min-max normalization of lines 195-197: the
normalized row is NaN (none), and the example's line score is NaN
(none) instead of the uniform-attention fallback the spec mandates, so
the NaN reaches the batch line loss and the batch loss. -/
theorem minmax_nan_code_bug :
    minmaxNorm [(1 : ℝ)/2, 1/2, 1/2, 1/2, 1/2] = none ∧
    exampleLineScoreRaw [(1 : ℝ)/2, 1/2, 1/2, 1/2, 1/2] [(1 : ℝ), 0, 0, 0, 0] = none := by
  have hmax : listMax [(1 : ℝ)/2, 1/2, 1/2, 1/2, 1/2] = 1/2 := by
    simp [listMax]
  have hmin : listMin [(1 : ℝ)/2, 1/2, 1/2, 1/2, 1/2] = 1/2 := by
    simp [listMin]
  have hnorm : minmaxNorm [(1 : ℝ)/2, 1/2, 1/2, 1/2, 1/2] = none := by
    rw [minmaxNorm, hmax, hmin]
    simp
  exact ⟨hnorm, by rw [exampleLineScoreRaw, hnorm]; rfl⟩

/-- C5 (code bug): in the source order (backward; step; zero_grad;
clip) the optimizer step always consumes the raw accumulated gradient,
whatever the clip threshold c is — so for a gradient of norm 2 with
max_grad_norm 1 the parameters move by the full unclipped amount (-2),
while the order the claim states (backward; clip; step; zero) moves
them by the clipped amount -(2 / (2 + 1e-6)); clipping after zero_grad
acts on a zero gradient and is a no-op. -/
theorem grad_clip_order_code_bug (g lr c : ℝ) (s : TrainState) :
    (codeIter g lr c s).params = s.params - lr * (s.grad + g) ∧
    (codeIter g lr c s).grad = 0 ∧
    (codeIter 2 1 1 ⟨0, 0⟩).params = -2 ∧
    (specIter 2 1 1 ⟨0, 0⟩).params = -(2 / (2 + 1e-6)) := by
  refine ⟨?_, ?_, ?_, ?_⟩
  · simp [codeIter, clipOp, zeroGradOp, stepOp, backwardOp]
  · simp only [codeIter, clipOp, zeroGradOp, stepOp, backwardOp, clipGradNorm]
    split <;> simp
  · norm_num [codeIter, clipOp, zeroGradOp, stepOp, backwardOp]
  · simp only [specIter, clipOp, zeroGradOp, stepOp, backwardOp, clipGradNorm]
    norm_num

lemma epochStep_saves_of_ne (M : ℕ) (aucs : ℕ → ℝ) (params : ℕ → α)
    (s : RunState α) (e : ℕ) (h : e % M ≠ 0) :
    (epochStep M aucs params s e).saves = s.saves := by
  simp only [epochStep]
  rw [if_neg h]
  split <;> rfl

lemma fold_saves_invariant (M : ℕ) (aucs : ℕ → ℝ) (params : ℕ → α) :
    ∀ (L : List ℕ) (s : RunState α), (∀ e ∈ L, e % M ≠ 0) →
    (L.foldl (epochStep M aucs params) s).saves = s.saves := by
  intro L
  induction L with
  | nil => intro s _; rfl
  | cons e t ih =>
    intro s hmem
    rw [List.foldl_cons, ih _ (fun x hx => hmem x (List.mem_cons_of_mem _ hx)),
      epochStep_saves_of_ne _ _ _ _ _ (hmem e (List.mem_cons_self _ _))]

/-- C7: for every run of at least one epoch, exactly one checkpoint is
written, at the final configured epoch and never earlier, and its
payload is the run's final best_epoch and best-model snapshot (the
optimizer state saved alongside is the current one by construction of
the write). -/
theorem checkpoint_written_once (N : ℕ) (aucs : ℕ → ℝ) (params : ℕ → α)
    (labels : List ℕ) (hN : 1 ≤ N) :
    (runTrain N aucs params labels).saves =
      [(N, (runTrain N aucs params labels).bestEpoch,
        (runTrain N aucs params labels).bestModel)] := by
  obtain ⟨M, rfl⟩ : ∃ M, N = M + 1 := ⟨N - 1, by omega⟩
  rw [runTrain, List.range'_1_concat, List.foldl_append, List.foldl_cons, List.foldl_nil]
  set s0 := (List.range' 1 M).foldl (epochStep (M + 1) aucs params)
    (⟨dictDefect labels, dictClean labels, 0, 0, none, []⟩ : RunState α) with hs0
  have hs0saves : s0.saves = [] := by
    rw [hs0]
    apply fold_saves_invariant
    intro e he
    rw [List.mem_range'_1] at he
    have : e % (M + 1) = e := Nat.mod_eq_of_lt (by omega)
    omega
  have hmod : (1 + M) % (M + 1) = 0 := by
    rw [Nat.add_comm]
    exact Nat.mod_self _
  by_cases hacc : s0.bestAuc ≤ aucs (1 + M) <;>
    simp [epochStep, hacc, hmod, hs0saves] <;> omega

lemma epochStep_bestAuc (M : ℕ) (aucs : ℕ → ℝ) (params : ℕ → α) (s : RunState α) (e : ℕ) :
    (epochStep M aucs params s e).bestAuc =
      if s.bestAuc ≤ aucs e then aucs e else s.bestAuc := by
  simp only [epochStep]
  split <;> split <;> rfl

lemma epochStep_bestEpoch (M : ℕ) (aucs : ℕ → ℝ) (params : ℕ → α) (s : RunState α) (e : ℕ) :
    (epochStep M aucs params s e).bestEpoch =
      if s.bestAuc ≤ aucs e then e else s.bestEpoch := by
  simp only [epochStep]
  split <;> split <;> rfl

lemma epochStep_bestModel (M : ℕ) (aucs : ℕ → ℝ) (params : ℕ → α) (s : RunState α) (e : ℕ) :
    (epochStep M aucs params s e).bestModel =
      if s.bestAuc ≤ aucs e then some (params e) else s.bestModel := by
  simp only [epochStep]
  split <;> split <;> rfl

lemma sel_fold (M : ℕ) (aucs : ℕ → ℝ) (params : ℕ → α) (w1 w2 : ℚ)
    (hpos : ∀ e, 0 ≤ aucs e) :
    ∀ (n : ℕ), 1 ≤ n → ∀ (s : RunState α),
      s = (List.range' 1 n).foldl (epochStep M aucs params) ⟨w1, w2, 0, 0, none, []⟩ →
      (∀ e ∈ List.range' 1 n, aucs e ≤ s.bestAuc) ∧
      s.bestEpoch ∈ List.range' 1 n ∧
      aucs s.bestEpoch = s.bestAuc ∧
      (∀ e ∈ List.range' 1 n, s.bestAuc ≤ aucs e → e ≤ s.bestEpoch) ∧
      s.bestModel = some (params s.bestEpoch) := by
  intro n hn
  induction n, hn using Nat.le_induction with
  | base =>
    intro s hs
    have h1 : (0 : ℝ) ≤ aucs 1 := hpos 1
    subst hs
    simp only [List.range'_one, List.foldl_cons, List.foldl_nil]
    refine ⟨?_, ?_, ?_, ?_, ?_⟩
    · intro e he
      rw [List.mem_singleton] at he
      subst he
      rw [epochStep_bestAuc, if_pos h1]
    · rw [epochStep_bestEpoch, if_pos h1]
      exact List.mem_singleton_self 1
    · rw [epochStep_bestEpoch, epochStep_bestAuc, if_pos h1, if_pos h1]
    · intro e he _
      rw [List.mem_singleton] at he
      rw [epochStep_bestEpoch, if_pos h1]
      omega
    · rw [epochStep_bestModel, epochStep_bestEpoch, if_pos h1, if_pos h1]
  | succ n hn ih =>
    intro s hs
    rw [List.range'_1_concat, List.foldl_append, List.foldl_cons, List.foldl_nil] at hs
    obtain ⟨ih1, ih2, ih3, ih4, ih5⟩ :=
      ih ((List.range' 1 n).foldl (epochStep M aucs params) ⟨w1, w2, 0, 0, none, []⟩) rfl
    set t := (List.range' 1 n).foldl (epochStep M aucs params)
      (⟨w1, w2, 0, 0, none, []⟩ : RunState α) with ht
    have hmem_old : ∀ e, e ∈ List.range' 1 n → e ∈ List.range' 1 (n + 1) := by
      intro e he
      rw [List.mem_range'_1] at he ⊢
      omega
    have hmem_new : (1 + n) ∈ List.range' 1 (n + 1) := by
      rw [List.mem_range'_1]
      omega
    by_cases hacc : t.bestAuc ≤ aucs (1 + n)
    · have hA : s.bestAuc = aucs (1 + n) := by rw [hs, epochStep_bestAuc, if_pos hacc]
      have hE : s.bestEpoch = 1 + n := by rw [hs, epochStep_bestEpoch, if_pos hacc]
      have hMo : s.bestModel = some (params (1 + n)) := by
        rw [hs, epochStep_bestModel, if_pos hacc]
      refine ⟨?_, ?_, ?_, ?_, ?_⟩
      · intro e he
        rw [List.range'_1_concat, List.mem_append] at he
        rcases he with he | he
        · exact le_trans (ih1 e he) (hA ▸ hacc)
        · rw [List.mem_singleton] at he
          subst he
          rw [hA]
      · rw [hE]; exact hmem_new
      · rw [hE, hA]
      · intro e he _
        rw [List.mem_range'_1] at he
        omega
      · rw [hMo, hE]
    · push_neg at hacc
      have hA : s.bestAuc = t.bestAuc := by rw [hs, epochStep_bestAuc, if_neg (not_le.2 hacc)]
      have hE : s.bestEpoch = t.bestEpoch := by
        rw [hs, epochStep_bestEpoch, if_neg (not_le.2 hacc)]
      have hMo : s.bestModel = t.bestModel := by
        rw [hs, epochStep_bestModel, if_neg (not_le.2 hacc)]
      refine ⟨?_, ?_, ?_, ?_, ?_⟩
      · intro e he
        rw [List.range'_1_concat, List.mem_append] at he
        rcases he with he | he
        · rw [hA]; exact ih1 e he
        · rw [List.mem_singleton] at he
          subst he
          rw [hA]
          exact hacc.le
      · rw [hE]; exact hmem_old _ ih2
      · rw [hE, hA]; exact ih3
      · intro e he hle
        rw [List.range'_1_concat, List.mem_append] at he
        rcases he with he | he
        · rw [hE]; exact ih4 e he (hA ▸ hle)
        · rw [List.mem_singleton] at he
          subst he
          rw [hA] at hle
          exact absurd hle (not_le.2 hacc)
      · rw [hMo, hE]; exact ih5

/-- C6: after N epochs with nonnegative validation AUCs, the selector
state of the run holds the maximum AUC (it dominates every epoch's AUC
and is attained), best_epoch is the largest epoch attaining it
(acceptance on >=, so ties go to the later epoch), and the stored
snapshot equals the parameter state of exactly that epoch — a pure
value, so later steps cannot mutate it (the deep copy of line 292). -/
theorem model_selector_invariant (N : ℕ) (aucs : ℕ → ℝ) (params : ℕ → α)
    (labels : List ℕ) (hN : 1 ≤ N) (hpos : ∀ e, 0 ≤ aucs e) :
    (∀ e ∈ List.range' 1 N, aucs e ≤ (runTrain N aucs params labels).bestAuc) ∧
    (runTrain N aucs params labels).bestEpoch ∈ List.range' 1 N ∧
    aucs (runTrain N aucs params labels).bestEpoch = (runTrain N aucs params labels).bestAuc ∧
    (∀ e ∈ List.range' 1 N, (runTrain N aucs params labels).bestAuc ≤ aucs e →
      e ≤ (runTrain N aucs params labels).bestEpoch) ∧
    (runTrain N aucs params labels).bestModel =
      some (params (runTrain N aucs params labels).bestEpoch) :=
  sel_fold N aucs params (dictDefect labels) (dictClean labels) hpos N hN _ rfl

/-- Witness for C6 at a two-epoch run with equal AUCs: the tie resolves
to the later epoch. -/
theorem model_selector_invariant_witness :
    (∀ e ∈ List.range' 1 2, (fun _ : ℕ => (0 : ℝ)) e ≤
      (runTrain 2 (fun _ => (0 : ℝ)) (fun e => e) []).bestAuc) ∧
    (runTrain 2 (fun _ => (0 : ℝ)) (fun e => e) []).bestEpoch ∈ List.range' 1 2 ∧
    (fun _ : ℕ => (0 : ℝ)) (runTrain 2 (fun _ => (0 : ℝ)) (fun e => e) []).bestEpoch =
      (runTrain 2 (fun _ => (0 : ℝ)) (fun e => e) []).bestAuc ∧
    (∀ e ∈ List.range' 1 2, (runTrain 2 (fun _ => (0 : ℝ)) (fun e => e) []).bestAuc ≤
      (fun _ : ℕ => (0 : ℝ)) e → e ≤ (runTrain 2 (fun _ => (0 : ℝ)) (fun e => e) []).bestEpoch) ∧
    (runTrain 2 (fun _ => (0 : ℝ)) (fun e => e) []).bestModel =
      some ((fun e => e) (runTrain 2 (fun _ => (0 : ℝ)) (fun e => e) []).bestEpoch) :=
  model_selector_invariant 2 (fun _ => (0 : ℝ)) (fun e => e) [] (by decide)
    (fun _ => le_refl 0)

/-- Witness for C7 at a concrete two-epoch run. -/
theorem checkpoint_written_once_witness :
    (runTrain 2 (fun _ => (1 : ℝ)) (fun e => e) [0, 1]).saves =
      [(2, (runTrain 2 (fun _ => (1 : ℝ)) (fun e => e) [0, 1]).bestEpoch,
        (runTrain 2 (fun _ => (1 : ℝ)) (fun e => e) [0, 1]).bestModel)] :=
  checkpoint_written_once 2 (fun _ => (1 : ℝ)) (fun e => e) [0, 1] (by decide)

lemma epochStep_weights (M : ℕ) (aucs : ℕ → ℝ) (params : ℕ → α) (s : RunState α) (e : ℕ) :
    (epochStep M aucs params s e).wDefect = s.wDefect ∧
    (epochStep M aucs params s e).wClean = s.wClean := by
  simp only [epochStep]
  split <;> split <;> exact ⟨rfl, rfl⟩

lemma fold_weights (M : ℕ) (aucs : ℕ → ℝ) (params : ℕ → α) :
    ∀ (L : List ℕ) (s : RunState α),
      (L.foldl (epochStep M aucs params) s).wDefect = s.wDefect ∧
      (L.foldl (epochStep M aucs params) s).wClean = s.wClean := by
  intro L
  induction L with
  | nil => exact fun s => ⟨rfl, rfl⟩
  | cons e t ih =>
    intro s
    rw [List.foldl_cons]
    obtain ⟨hd, hc⟩ := ih (epochStep M aucs params s e)
    obtain ⟨hd2, hc2⟩ := epochStep_weights M aucs params s e
    exact ⟨hd.trans hd2, hc.trans hc2⟩

/-- C4 counterexample: on the label multiset [1, 1, 0] (defect is the
majority) the code's min/max assignment gives the minority class
(clean, count 1) the smaller weight, and weight_dict['defect'] is
3/2 rather than total/(2*count_defect) = 3/4, refuting the claim's
per-class formula and the minority >= majority ordering. -/
theorem class_weight_counterexample :
    ([1, 1, 0] : List ℕ).count 0 < ([1, 1, 0] : List ℕ).count 1 ∧
    dictClean [1, 1, 0] < dictDefect [1, 1, 0] ∧
    dictDefect [1, 1, 0] ≠ weightOf [1, 1, 0] 1 := by
  refine ⟨by decide, ?_, ?_⟩ <;>
    norm_num [dictClean, dictDefect, weightOf]

/-- C4 (amended): when both classes occur and the clean class 0 is
weakly the majority of the training labels (the intended regime of the
defect datasets), the dictionary assigns clean the weight
total/(2*count_0), defect the weight total/(2*count_1), the minority
(defect) weight dominates the majority weight, and the weights stored
in the run state are those computed before epoch 1 — no epoch of the
loop ever recomputes them. -/
theorem class_weights_amended (labels : List ℕ) (N : ℕ) (aucs : ℕ → ℝ) (params : ℕ → α)
    (h1 : 0 < labels.count 1) (hmaj : labels.count 1 ≤ labels.count 0) :
    dictClean labels = weightOf labels 0 ∧
    dictDefect labels = weightOf labels 1 ∧
    weightOf labels 0 ≤ weightOf labels 1 ∧
    (runTrain N aucs params labels).wClean = dictClean labels ∧
    (runTrain N aucs params labels).wDefect = dictDefect labels := by
  have hle : weightOf labels 0 ≤ weightOf labels 1 := by
    rw [weightOf, weightOf]
    have hc1 : (0 : ℚ) < 2 * labels.count 1 := by
      have : (0 : ℚ) < (labels.count 1 : ℚ) := by exact_mod_cast h1
      linarith
    have hcc : (2 : ℚ) * labels.count 1 ≤ 2 * labels.count 0 := by
      have : (labels.count 1 : ℚ) ≤ (labels.count 0 : ℚ) := by exact_mod_cast hmaj
      linarith
    have hn : (0 : ℚ) ≤ (labels.length : ℚ) := by positivity
    exact div_le_div_of_nonneg_left hn hc1 hcc
  obtain ⟨hd, hc⟩ := fold_weights N aucs params (List.range' 1 N)
    (⟨dictDefect labels, dictClean labels, 0, 0, none, []⟩ : RunState α)
  exact ⟨min_eq_left hle, max_eq_right hle, hle, hc, hd⟩

/-- Witness for the amended C4 on labels [0, 0, 1] with a one-epoch run. -/
theorem class_weights_amended_witness :
    dictClean [0, 0, 1] = weightOf [0, 0, 1] 0 ∧
    dictDefect [0, 0, 1] = weightOf [0, 0, 1] 1 ∧
    weightOf [0, 0, 1] 0 ≤ weightOf [0, 0, 1] 1 ∧
    (runTrain 1 (fun _ => (0 : ℝ)) (fun e => e) [0, 0, 1]).wClean = dictClean [0, 0, 1] ∧
    (runTrain 1 (fun _ => (0 : ℝ)) (fun e => e) [0, 0, 1]).wDefect = dictDefect [0, 0, 1] :=
  class_weights_amended [0, 0, 1] 1 (fun _ => (0 : ℝ)) (fun e => e) (by decide) (by decide)

lemma zipWith3_nil (f : α → β → γ → δ) (b : List β) (c : List γ) :
    zipWith3 f [] b c = [] := by
  cases b <;> cases c <;> rfl

lemma jsd_nil : jsd [] [] = 0 := by
  simp only [jsd, jsdEps, softmax, List.map_nil, kld, zipWith3_nil, List.sum_nil]
  norm_num

/-- C8: the batch blend coefficient k_eff = k * (cnt / batch_size) is
always in [0, k], hits 0 exactly when no example is eligible and k when
all are, and whenever k_eff is in [0, 1] the combined loss
(1-k_eff)*file_loss + k_eff*line_loss lies between the two losses. -/
theorem adaptive_k_bounds (k fl : ℝ) (batch : List FileSample)
    (hk : 0 ≤ k) (hB : batch ≠ []) :
    0 ≤ kEff k (batchCnt batch) batch.length ∧
    kEff k (batchCnt batch) batch.length ≤ k ∧
    (batchCnt batch = 0 → kEff k (batchCnt batch) batch.length = 0) ∧
    (batchCnt batch = batch.length → kEff k (batchCnt batch) batch.length = k) ∧
    (kEff k (batchCnt batch) batch.length ≤ 1 →
      min fl (batchLineLoss batch) ≤ batchLoss k fl batch ∧
      batchLoss k fl batch ≤ max fl (batchLineLoss batch)) := by
  have hBpos : (0 : ℝ) < batch.length := by
    have := List.length_pos.2 hB
    exact_mod_cast this
  have hcnt : batchCnt batch ≤ batch.length := List.length_filter_le _ _
  have hratio0 : (0 : ℝ) ≤ (batchCnt batch : ℝ) / batch.length := by positivity
  have hratio1 : (batchCnt batch : ℝ) / batch.length ≤ 1 := by
    rw [div_le_one hBpos]
    exact_mod_cast hcnt
  have h0 : 0 ≤ kEff k (batchCnt batch) batch.length := by
    rw [kEff]; positivity
  refine ⟨h0, ?_, ?_, ?_, ?_⟩
  · rw [kEff]
    calc k * ((batchCnt batch : ℝ) / batch.length) ≤ k * 1 :=
          mul_le_mul_of_nonneg_left hratio1 hk
      _ = k := mul_one k
  · intro hz
    rw [kEff, hz]
    simp
  · intro hz
    rw [kEff, hz, div_self (ne_of_gt hBpos), mul_one]
  · intro h1
    set t := kEff k (batchCnt batch) batch.length with htdef
    have h1t : 0 ≤ 1 - t := by linarith
    constructor
    · have ha : (1 - t) * min fl (batchLineLoss batch) ≤ (1 - t) * fl :=
        mul_le_mul_of_nonneg_left (min_le_left _ _) h1t
      have hb : t * min fl (batchLineLoss batch) ≤ t * batchLineLoss batch :=
        mul_le_mul_of_nonneg_left (min_le_right _ _) h0
      have hsum : (1 - t) * min fl (batchLineLoss batch) + t * min fl (batchLineLoss batch)
          = min fl (batchLineLoss batch) := by ring
      simp only [batchLoss, ← htdef]
      linarith
    · have ha : (1 - t) * fl ≤ (1 - t) * max fl (batchLineLoss batch) :=
        mul_le_mul_of_nonneg_left (le_max_left _ _) h1t
      have hb : t * batchLineLoss batch ≤ t * max fl (batchLineLoss batch) :=
        mul_le_mul_of_nonneg_left (le_max_right _ _) h0
      have hsum : (1 - t) * max fl (batchLineLoss batch) + t * max fl (batchLineLoss batch)
          = max fl (batchLineLoss batch) := by ring
      simp only [batchLoss, ← htdef]
      linarith

/-- Witness for C8 on a one-element batch whose example is ineligible
(file label 0), with k = 1. -/
theorem adaptive_k_bounds_witness :
    0 ≤ kEff 1 (batchCnt [⟨[], [], 0⟩]) ([(⟨[], [], 0⟩ : FileSample)]).length ∧
    kEff 1 (batchCnt [⟨[], [], 0⟩]) ([(⟨[], [], 0⟩ : FileSample)]).length ≤ 1 ∧
    (batchCnt [(⟨[], [], 0⟩ : FileSample)] = 0 →
      kEff 1 (batchCnt [⟨[], [], 0⟩]) ([(⟨[], [], 0⟩ : FileSample)]).length = 0) ∧
    (batchCnt [(⟨[], [], 0⟩ : FileSample)] = ([(⟨[], [], 0⟩ : FileSample)]).length →
      kEff 1 (batchCnt [⟨[], [], 0⟩]) ([(⟨[], [], 0⟩ : FileSample)]).length = 1) ∧
    (kEff 1 (batchCnt [⟨[], [], 0⟩]) ([(⟨[], [], 0⟩ : FileSample)]).length ≤ 1 →
      min 7 (batchLineLoss [⟨[], [], 0⟩]) ≤ batchLoss 1 7 [⟨[], [], 0⟩] ∧
      batchLoss 1 7 [⟨[], [], 0⟩] ≤ max 7 (batchLineLoss [⟨[], [], 0⟩])) :=
  adaptive_k_bounds 1 7 [⟨[], [], 0⟩] zero_le_one (by simp)

/-- C9: an example with file label 0 or no line label equal to 1
contributes neither to the eligible count nor to the collected line
scores; a batch with zero eligible examples has aggregate line loss
exactly 0 and its combined loss reduces to the pure file loss; and an
eligible example with fewer than 5 lines (top_k = 0) has per-example
line score exactly 0 — the empty selection evaluates without error or
NaN. -/
theorem line_loss_eligibility (ex : FileSample) (batch : List FileSample) (k fl : ℝ) :
    (ex.fileLabel = 0 ∨ (1 : ℝ) ∉ ex.lineLabel →
      batchLineScores (ex :: batch) = batchLineScores batch ∧
      batchCnt (ex :: batch) = batchCnt batch) ∧
    (batchCnt batch = 0 → batchLineLoss batch = 0 ∧ batchLoss k fl batch = fl) ∧
    (ex.lineLabel.length < 5 → exampleLineScore ex.att ex.lineLabel = 0) := by
  refine ⟨?_, ?_, ?_⟩
  · intro h
    have hfalse : eligibleB ex = false := by
      rw [eligibleB, decide_eq_false_iff_not]
      rintro ⟨hne, hmem⟩
      rcases h with h | h
      · exact hne h
      · exact h hmem
    constructor
    · rw [batchLineScores, batchLineScores, List.filter_cons, hfalse]
      simp
    · rw [batchCnt, batchCnt, List.filter_cons, hfalse]
      simp
  · intro hz
    have hfil : batch.filter eligibleB = [] := by
      rw [batchCnt] at hz
      exact List.length_eq_zero.1 hz
    have hsc : batchLineScores batch = [] := by
      rw [batchLineScores, hfil, List.map_nil]
    constructor
    · rw [batchLineLoss, hsc]
      simp
    · rw [batchLoss, kEff, batchCnt, hfil]
      simp [batchLineLoss, hsc]
  · intro hlen
    have hk0 : topK ex.lineLabel.length = 0 := topK_eq_zero_of_lt_five hlen
    simp only [exampleLineScore, hk0, List.take_zero, List.map_nil]
    exact jsd_nil

/-- Witness for C9 at an ineligible empty example in an empty batch. -/
theorem line_loss_eligibility_witness :
    (((⟨[], [], 0⟩ : FileSample)).fileLabel = 0 ∨
        (1 : ℝ) ∉ ((⟨[], [], 0⟩ : FileSample)).lineLabel →
      batchLineScores [⟨[], [], 0⟩] = batchLineScores [] ∧
      batchCnt [(⟨[], [], 0⟩ : FileSample)] = batchCnt []) ∧
    (batchCnt ([] : List FileSample) = 0 →
      batchLineLoss [] = 0 ∧ batchLoss 0 3 [] = 3) ∧
    (((⟨[], [], 0⟩ : FileSample)).lineLabel.length < 5 →
      exampleLineScore ((⟨[], [], 0⟩ : FileSample)).att
        ((⟨[], [], 0⟩ : FileSample)).lineLabel = 0) := by
  have h := line_loss_eligibility (⟨[], [], 0⟩ : FileSample) [] 0 3
  exact h

lemma chunkList_flatten (B : ℕ) (_hB : 0 < B) :
    ∀ (l : List α), (chunkList B l).flatten = l := by
  have key : ∀ (n : ℕ) (l : List α), l.length ≤ n → (chunkList B l).flatten = l := by
    intro n
    induction n with
    | zero =>
      intro l hl
      have : l = [] := List.length_eq_zero.1 (Nat.le_zero.1 hl)
      subst this
      simp [chunkList]
    | succ n ih =>
      intro l hl
      cases l with
      | nil => simp [chunkList]
      | cons x xs =>
        rw [chunkList, List.flatten_cons,
          ih (xs.drop (B - 1)) (by simp only [List.length_drop]; simp at hl; omega),
          List.cons_append, List.take_append_drop]
  exact fun l => key l.length l (le_refl _)

lemma trainBatches_full (B : ℕ) (xs : List α) (hB : 0 < B) :
    ∀ b ∈ trainBatches B xs, b.length = B := by
  intro b hb
  rw [trainBatches, List.mem_map] at hb
  obtain ⟨i, hi, rfl⟩ := hb
  rw [List.mem_range] at hi
  have hmul : (i + 1) * B ≤ xs.length :=
    le_trans (Nat.mul_le_mul_right B (by omega)) (Nat.div_mul_le_self _ _)
  rw [Nat.succ_mul] at hmul
  rw [List.length_take, List.length_drop]
  set m := i * B with hm
  omega

lemma trainBatches_flatten (B : ℕ) (xs : List α) (hB : 0 < B) :
    (trainBatches B xs).flatten = xs.take (xs.length / B * B) := by
  have key : ∀ (n : ℕ), n * B ≤ xs.length →
      ((List.range n).map (fun i => (xs.drop (i * B)).take B)).flatten = xs.take (n * B) := by
    intro n
    induction n with
    | zero => simp
    | succ n ih =>
      intro hle
      rw [List.range_succ, List.map_append, List.flatten_append,
        ih (le_trans (by rw [Nat.succ_mul]; omega) hle)]
      simp only [List.map_cons, List.map_nil, List.flatten_cons, List.flatten_nil,
        List.append_nil]
      rw [Nat.succ_mul, List.take_add]
  rw [trainBatches]
  exact key _ (Nat.div_mul_le_self _ _)

/-- C10: with a positive batch size, every training batch produced by
the drop_last loader has exactly batch_size examples (so the reshape
of the file logits to (batch_size, 1) is well-formed), the training
pass covers exactly the first floor(n/B)*B examples — the final
incomplete batch is dropped and its examples get no gradient update
that epoch — while the validation loader's batches concatenate back to
the entire example list, the final batch being smaller when B does not
divide n. -/
theorem dataloader_batching (B : ℕ) (xs : List α) (hB : 0 < B) :
    (∀ b ∈ trainBatches B xs, b.length = B) ∧
    (trainBatches B xs).flatten = xs.take (xs.length / B * B) ∧
    (validBatches B xs).flatten = xs :=
  ⟨trainBatches_full B xs hB, trainBatches_flatten B xs hB,
    chunkList_flatten B hB xs⟩

/-- Witness for C10 at batch size 2 over a 3-element example list: the
training loader yields one full batch [0, 1] and drops example 2, the
validation loader yields [[0, 1], [2]]. -/
theorem dataloader_batching_witness :
    (∀ b ∈ trainBatches 2 [0, 1, 2], b.length = 2) ∧
    (trainBatches 2 [0, 1, 2]).flatten = ([0, 1, 2] : List ℕ).take (([0, 1, 2] : List ℕ).length / 2 * 2) ∧
    (validBatches 2 [0, 1, 2]).flatten = [0, 1, 2] :=
  dataloader_batching 2 [0, 1, 2] (by decide)
